import Mathlib

/-!
Verification of the tg-export history synchronizer (export.py, dbconvert.py)
against its specification. The Python source is shallowly embedded: the
sqlite message table becomes a finite map from the primary key `(id, dest)`
to rows, the telegram-cli remote becomes an abstract page-fetch function,
and the unbounded `while` loops of the sync engine become fuel-indexed
recursions returning `none` on fuel exhaustion.
-/

namespace TgExport

/-- Embedding of a message record as handled by `log_msg` in export.py.
Fields mirror the 14 columns of the `messages` table; `none` models an
absent JSON key / SQL NULL.  `id` is modelled as the integer message id
(the `getmsgid` int branch); `src`, `dest`, `fwd_src` are the canonical
peer keys computed by `getpeerid` (`none` when the key is absent). -/
structure Msg where
  id : Int
  src : Option Int
  dest : Option Int
  text : Option String
  media : Option String
  date : Option Int
  fwd_src : Option Int
  fwd_date : Option Int
  reply_id : Option Int
  out : Option Int
  unread : Option Int
  service : Option Int
  action : Option String
  flags : Option Int
  deriving DecidableEq

/-- Primary key of the `messages` table: `(id, dest)`. -/
abbrev MsgKey := Int × Option Int

/-- The `messages` table as a map from primary key to stored row. -/
abbrev MsgDB := MsgKey → Option Msg

/-- Key under which `log_msg` looks up and stores a message:
`(msg['id'], getpeerid(msg, 'to'))`. -/
def msgKey (m : Msg) : MsgKey := (m.id, m.dest)

/-- Embedding of `log_msg` (export.py:246-259) restricted to its effect on
the `messages` table (the `update_peer` calls touch only the peer tables).
`ret` is true iff no row exists under `(id, dest)`; the row is REPLACEd
when the row is new or when the incoming record has a `flags` key
(`if ret or 'flags' in msg`). Returns the new table and `ret`. -/
def log_msg (db : MsgDB) (m : Msg) : MsgDB × Bool :=
  let ret := (db (msgKey m)).isNone
  if ret || m.flags.isSome then
    (fun k => if k = msgKey m then some m else db k, ret)
  else
    (db, ret)

/-- Folding `log_msg` over a batch, accumulating the count of newly
created rows (`hit += log_msg(msg)` in `process`). -/
def log_msgs : MsgDB → List Msg → MsgDB × Nat
  | db, [] => (db, 0)
  | db, m :: rest =>
    let r := log_msg db m
    let s := log_msgs r.1 rest
    (s.1, (if r.2 then 1 else 0) + s.2)

/-- Embedding of the list branch of `process` (export.py:261-268): an empty
batch yields `(False, 0)` and leaves the table alone; a non-empty batch is
logged message by message and yields `(True, hit)`. -/
def process (db : MsgDB) (l : List Msg) : MsgDB × Bool × Nat :=
  match l with
  | [] => (db, false, 0)
  | _ :: _ =>
    let r := log_msgs db l
    (r.1, true, r.2)

/-- Table-only view of one `log_msg` application (drops the `ret` flag). -/
def applyOne (db : MsgDB) (m : Msg) : MsgDB := (log_msg db m).1

/-- Table-only view of a whole batch application. -/
def applyList : MsgDB → List Msg → MsgDB
  | db, [] => db
  | db, m :: rest => applyList (applyOne db m) rest

/-- Last message of a batch with key `k` that carries a `flags` field;
such a message is the last writer of key `k` when the key is occupied. -/
def lastFlagged : List Msg → MsgKey → Option Msg
  | [], _ => none
  | m :: rest, k =>
    match lastFlagged rest k with
    | some x => some x
    | none => if msgKey m = k ∧ m.flags.isSome then some m else none

/-- First message of a batch with key `k`; it is the writer of key `k`
when the key was previously empty and no flagged message follows. -/
def firstKey : List Msg → MsgKey → Option Msg
  | [], _ => none
  | m :: rest, k => if msgKey m = k then some m else firstKey rest k

/-- Embedding of the integer-range generator `find_holes` iterates over:
Python `range(minv, maxv + 1)` as a list of integers. -/
def int_range (minv maxv : Int) : List Int :=
  (List.range (maxv + 1 - minv).toNat).map (fun k : Nat => minv + (k : Int))

/-- Embedding of `find_holes` (export.py:367-370): the integers of
`[minv, maxv]` not in the known-id set `s`, in increasing order. -/
def find_holes (minv maxv : Int) (s : List Int) : List Int :=
  (int_range minv maxv).filter (fun n => ! s.contains n)

/-- Abstract model of one pass of the hole-retry loop of `export_holes`
(export.py:416-432).  An item is modelled by its remaining failure
budget: a point lookup on it raises iff the budget is positive.  A pass
walks the failed list; every item that raises is appended to the fresh
`newlist` with its budget consumed, every item that succeeds is dropped;
`newlist` becomes the next `failed`. -/
def retry_pass (failed : List Nat) : List Nat :=
  failed.filterMap (fun b => if b = 0 then none else some (b - 1))

/-- Embedding of the `LRUCache` class (export.py:29-54).  The backing
`collections.OrderedDict` is a duplicate-free association list; the head
is the least recently used entry, the tail the most recently used. -/
structure LRUCache where
  capacity : Nat
  cache : List (Int × Int)
  deriving DecidableEq

/-- OrderedDict lookup: value stored under `k`, if any. -/
def od_get (l : List (Int × Int)) (k : Int) : Option Int :=
  (l.find? (fun e => e.1 == k)).map (fun e => e.2)

/-- OrderedDict `pop`'s removal effect: drop the entry stored under `k`. -/
def od_erase (l : List (Int × Int)) (k : Int) : List (Int × Int) :=
  l.eraseP (fun e => e.1 == k)

/-- Embedding of `LRUCache.__getitem__`: pop the key and re-insert it at
the most-recently-used end.  A missing key raises `KeyError` in the
source with the dict untouched; this is modelled as `(none, c)`. -/
def lru_getitem (c : LRUCache) (k : Int) : Option Int × LRUCache :=
  match od_get c.cache k with
  | none => (none, c)
  | some v => (some v, ⟨c.capacity, od_erase c.cache k ++ [(k, v)]⟩)

/-- Embedding of `LRUCache.get`: identical to `__getitem__` except that a
missing key returns `None` instead of raising; the state effect is the
same. -/
def lru_get (c : LRUCache) (k : Int) : Option Int × LRUCache :=
  match od_get c.cache k with
  | none => (none, c)
  | some v => (some v, ⟨c.capacity, od_erase c.cache k ++ [(k, v)]⟩)

/-- Embedding of `LRUCache.__setitem__`: pop the key if present; else, if
the dict is at capacity, evict the least recently used entry
(`popitem(last=False)`, the head); finally store `(k, v)` at the
most-recently-used end. -/
def lru_setitem (c : LRUCache) (k : Int) (v : Int) : LRUCache :=
  if (od_get c.cache k).isSome then
    ⟨c.capacity, od_erase c.cache k ++ [(k, v)]⟩
  else if c.capacity ≤ c.cache.length then
    ⟨c.capacity, c.cache.drop 1 ++ [(k, v)]⟩
  else
    ⟨c.capacity, c.cache ++ [(k, v)]⟩

/-- One cache operation, as performed by `update_peer` and friends. -/
inductive LRUOp where
  | get (k : Int)
  | getitem (k : Int)
  | set (k : Int) (v : Int)

/-- State transition of a single cache operation. -/
def lru_step (c : LRUCache) : LRUOp → LRUCache
  | .get k => (lru_get c k).2
  | .getitem k => (lru_getitem c k).2
  | .set k v => lru_setitem c k v

/-- Running a sequence of cache operations from the empty cache, as the
module does starting from `PEER_CACHE = LRUCache(10)`. -/
def lru_run (cap : Nat) (ops : List LRUOp) : LRUCache :=
  ops.foldl lru_step ⟨cap, []⟩

/-- Running state of the paging loops of `export_for` (export.py:331-365):
the evolving message table, the page offset `pos`, the last `process`
result `res = (ok, hit)`, and counters for the history fetches issued and
rows newly inserted during this call. -/
structure LoopState where
  db : MsgDB
  pos : Nat
  res : Bool × Nat
  fetches : Nat
  inserted : Nat

/-- One loop body of `export_for`: fetch a page of (up to) 100 messages at
the current offset (`cmd_history(print_id(item), 100, pos)`), process it,
and advance the offset by 100. -/
def hist_step (fetch : Nat → List Msg) (st : LoopState) : LoopState :=
  let pr := process st.db (fetch st.pos)
  ⟨pr.1, st.pos + 100, pr.2, st.fetches + 1, st.inserted + pr.2.2⟩

/-- First paging loop of `export_for`:
`while res[0] is True and not res[1]` — keep fetching while pages are
non-empty and yield zero newly inserted rows.  Fuel-indexed; `none` means
the fuel ran out with the condition still true. -/
def hist_loop1 (fetch : Nat → List Msg) : Nat → LoopState → Option LoopState
  | 0, st => if st.res.1 = true ∧ st.res.2 = 0 then none else some st
  | fuel + 1, st =>
    if st.res.1 = true ∧ st.res.2 = 0 then hist_loop1 fetch fuel (hist_step fetch st)
    else some st

/-- Second paging loop of `export_for`: `while res[0] is True` — keep
fetching until a page comes back empty. -/
def hist_loop2 (fetch : Nat → List Msg) : Nat → LoopState → Option LoopState
  | 0, st => if st.res.1 = true then none else some st
  | fuel + 1, st =>
    if st.res.1 = true then hist_loop2 fetch fuel (hist_step fetch st)
    else some st

/-- Outcome of a successful `export_for` run: the message table, the
cursor persisted by the final `set_finished(item, pos)`, and the fetch
and insert counters. -/
structure SyncResult where
  db : MsgDB
  cursor : Nat
  fetches : Nat
  inserted : Nat

/-- Embedding of `export_for` (export.py:331-365) on the success path (the
abstract remote `fetch` never raises).  At offset 0 an initial probe page
is fetched (`cmd_history(print_id(item), 100)`); otherwise `res` starts
as `(True, 0)`.  Loop 1 pages while pages are non-empty with zero new
rows; then, unless a forced resync was requested, the offset jumps to
`max(pos, is_finished(item))`; loop 2 pages until an empty page; finally
the reached offset is persisted as the cursor.  The `update_peer(item)`
call touches only peer tables and is not part of the message-table state.
Fuel bounds both loops; `none` means a loop did not terminate within the
fuel. -/
def export_for (fetch : Nat → List Msg) (db : MsgDB) (finished : Nat)
    (pos0 : Nat) (force : Bool) (fuel : Nat) : Option SyncResult :=
  let st0 : LoopState :=
    if pos0 = 0 then
      let pr := process db (fetch 0)
      ⟨pr.1, 100, pr.2, 1, pr.2.2⟩
    else
      ⟨db, pos0, (true, 0), 0, 0⟩
  match hist_loop1 fetch fuel st0 with
  | none => none
  | some st1 =>
    let st2 : LoopState := { st1 with pos := if force then st1.pos else max st1.pos finished }
    match hist_loop2 fetch fuel st2 with
    | none => none
    | some st3 => some ⟨st3.db, st3.pos, st3.fetches, st3.inserted⟩

/-- Embedding of the dialog-enumeration loop of `export_text`
(export.py:443-451).  A dialog is represented by its id.  Crucially, in
the source `dlist = items = lastitems = cmd_dialog_list(100)` makes all
three names alias one list object and `lastitems` is never reassigned, so
after `dlist.extend(items)` the set-equality test compares each new page
against the ids of the whole accumulated `dlist`, not against the
previous page.  `dlist` is the accumulator (aliased by `lastitems`),
`items` the page fetched in the previous iteration, `dcount` the next
offset.  Fuel-indexed; `none` means the loop did not terminate. -/
def dialog_loop (fetchD : Nat → List Int) : Nat → List Int → List Int → Nat → Option (List Int)
  | 0, _, _, _ => none
  | fuel + 1, dlist, items, dcount =>
    if items = [] then some dlist
    else if (fetchD dcount).toFinset = dlist.toFinset then some dlist
    else dialog_loop fetchD fuel (dlist ++ fetchD dcount) (fetchD dcount) (dcount + 100)

/-- Dialog enumeration of `export_text`: initial page at offset 0, then
the loop. -/
def export_text_dialogs (fetchD : Nat → List Int) (fuel : Nat) : Option (List Int) :=
  dialog_loop fetchD fuel (fetchD 0) (fetchD 0) 100

/-- Embedding of the C struct behind `tgl_peer_id_t`
(`int peer_type; int peer_id; long long access_hash`). -/
structure tgl_peer_id_t where
  peer_type : Int
  peer_id : Int
  access_hash : Int
  deriving DecidableEq

namespace tgl_peer_id_t

/-- Constant `TGL_PEER_USER`. -/
def TGL_PEER_USER : Int := 1

/-- Constant `TGL_PEER_CHAT`. -/
def TGL_PEER_CHAT : Int := 2

/-- Constant `TGL_PEER_ENCR_CHAT`. -/
def TGL_PEER_ENCR_CHAT : Int := 4

/-- Constant `TGL_PEER_CHANNEL`. -/
def TGL_PEER_CHANNEL : Int := 5

/-- Embedding of `tgl_peer_id_t.to_id` (export.py:115-117):
`self.peer_type << 32 | self.peer_id` on Python's unbounded integers
(`<<` is multiplication by `2 ** 32`, `|` is two's-complement bitwise
or, both matching `Int.shiftLeft` and `Int.lor`).  Note the access hash
is not part of the value. -/
def to_id (p : tgl_peer_id_t) : Int :=
  Int.lor (p.peer_type <<< (32 : Int)) p.peer_id

end tgl_peer_id_t

/-- Hex digit emitted by `binascii.b2a_hex` (lowercase). -/
def hex_digit (n : Nat) : Char :=
  if n < 10 then Char.ofNat (48 + n) else Char.ofNat (87 + n)

/-- Two lowercase hex characters for one byte. -/
def byte_hex (b : Nat) : List Char := [hex_digit (b / 16), hex_digit (b % 16)]

/-- Value of one hex character as accepted by `binascii.a2b_hex`
(digits, lowercase and uppercase letters). -/
def hex_val (c : Char) : Option Nat :=
  if 48 ≤ c.toNat ∧ c.toNat ≤ 57 then some (c.toNat - 48)
  else if 97 ≤ c.toNat ∧ c.toNat ≤ 102 then some (c.toNat - 87)
  else if 65 ≤ c.toNat ∧ c.toNat ≤ 70 then some (c.toNat - 55)
  else none

/-- Byte list decoded from a hex string (`binascii.a2b_hex`): pairs of hex
characters; an odd length or a non-hex character is an error. -/
def parse_hex : List Char → Option (List Nat)
  | [] => some []
  | [_] => none
  | c1 :: c2 :: rest =>
    match hex_val c1, hex_val c2, parse_hex rest with
    | some hi, some lo, some bs => some ((16 * hi + lo) :: bs)
    | _, _, _ => none

/-- Little-endian byte list of a natural number, `w` bytes wide
(the byte layout produced by `struct.pack('<…')`). -/
def to_le_bytes : Nat → Nat → List Nat
  | 0, _ => []
  | w + 1, v => v % 256 :: to_le_bytes w (v / 256)

/-- Natural number encoded by a little-endian byte list. -/
def from_le_bytes : List Nat → Nat
  | [] => 0
  | b :: rest => b + 256 * from_le_bytes rest

/-- Two's-complement bit pattern of a signed integer, `w` bits wide (what
`struct.pack` stores for formats `i` and `q`). -/
def to_unsigned (w : Nat) (x : Int) : Nat := (x % ((2 ^ w : Nat) : Int)).toNat

/-- Signed integer read back from a `w`-bit two's-complement pattern
(what `struct.unpack` returns for formats `i` and `q`). -/
def to_signed (w : Nat) (n : Nat) : Int :=
  if n < 2 ^ (w - 1) then (n : Int) else (n : Int) - ((2 ^ w : Nat) : Int)

namespace tgl_peer_id_t

/-- Embedding of `tgl_peer_id_t.dumps` (export.py:98-99):
`'$' + binascii.b2a_hex(struct.pack('<iiq', *self))`. -/
def dumps (p : tgl_peer_id_t) : String :=
  String.mk ('$' ::
    ((to_le_bytes 4 (to_unsigned 32 p.peer_type) ++
      to_le_bytes 4 (to_unsigned 32 p.peer_id) ++
      to_le_bytes 8 (to_unsigned 64 p.access_hash)).flatMap byte_hex))

/-- Leading-`'$'` stripping performed by `s.lstrip('$')`. -/
def strip_dollars : List Char → List Char
  | [] => []
  | c :: rest => if c = '$' then strip_dollars rest else c :: rest

/-- Embedding of `tgl_peer_id_t.loads` (export.py:94-96):
`struct.unpack('<iiq', binascii.a2b_hex(s.lstrip('$')))`; `none` models
the exceptions raised on a malformed hex string or a payload that is not
exactly 16 bytes. -/
def loads (s : String) : Option tgl_peer_id_t :=
  match parse_hex (strip_dollars s.data) with
  | none => none
  | some bs =>
    if bs.length = 16 then
      some ⟨to_signed 32 (from_le_bytes (bs.take 4)),
            to_signed 32 (from_le_bytes ((bs.drop 4).take 4)),
            to_signed 64 (from_le_bytes (bs.drop 8))⟩
    else none

end tgl_peer_id_t

/-- Embedding of `convert_peerid1` (dbconvert.py:71-73), the normalizer of
the oldest schema generation's signed peer ids:
`tgl_peer_id_t(TGL_PEER_CHAT if peerid < 0 else TGL_PEER_USER, abs(peerid), 0).to_id()`. -/
def convert_peerid1 (peerid : Int) : Int :=
  tgl_peer_id_t.to_id ⟨if peerid < 0 then tgl_peer_id_t.TGL_PEER_CHAT else tgl_peer_id_t.TGL_PEER_USER, |peerid|, 0⟩

/-- Embedding of `convert_peerid2` (dbconvert.py:75-77), the normalizer of
the hex-string schema generation: `tgl_peer_id_t.loads(peerid).to_id()`;
`none` models the exception on a malformed key. -/
def convert_peerid2 (s : String) : Option Int :=
  (tgl_peer_id_t.loads s).map tgl_peer_id_t.to_id

/-- Well-formed canonical key string: exactly what `dumps` produces — a
single `'$'` followed by 32 lowercase hex characters. -/
def well_formed_key (s : String) : Prop :=
  ∃ cs : List Char, s.data = '$' :: cs ∧ cs.length = 32 ∧
    ∀ c ∈ cs, (48 ≤ c.toNat ∧ c.toNat ≤ 57) ∨ (97 ≤ c.toNat ∧ c.toNat ≤ 102)

/-- Signed ranges of the `struct` formats `<iiq`: what `struct.pack` in
`dumps` accepts. -/
def in_range (p : tgl_peer_id_t) : Prop :=
  -(2 ^ 31) ≤ p.peer_type ∧ p.peer_type < 2 ^ 31 ∧
  -(2 ^ 31) ≤ p.peer_id ∧ p.peer_id < 2 ^ 31 ∧
  -(2 ^ 63) ≤ p.access_hash ∧ p.access_hash < 2 ^ 63

/-- Message with a given id used in concrete scenarios: destination peer
key 1, non-empty flags (a finalized record as telegram-cli emits for
created messages). -/
def mkMsg (i : Int) : Msg :=
  ⟨i, none, some 1, none, none, none, none, none, none, none, none, none, none, some 1⟩

/-- Concrete remote for the resume scenario of claim C1: two non-empty
pages (offsets 0 and 100) and nothing beyond — a dialog whose whole
history is two pages. -/
def fetchC1 : Nat → List Msg :=
  fun n => if n = 0 then [mkMsg 1] else if n = 100 then [mkMsg 2] else []

/-- Ledger that already contains both messages of `fetchC1`. -/
def dbC1 : MsgDB :=
  fun k => if k = msgKey (mkMsg 1) then some (mkMsg 1)
    else if k = msgKey (mkMsg 2) then some (mkMsg 2) else none

/-- Concrete remote for the witness of claim C1's amended statement: one
known page at offset 0. -/
def fetchW : Nat → List Msg := fun n => if n = 0 then [mkMsg 1] else []

/-- Ledger containing exactly the one message of `fetchW`. -/
def dbW : MsgDB := fun k => if k = msgKey (mkMsg 1) then some (mkMsg 1) else none

/-- Ledger for the claim C9 scenario: 250 known messages with ids 1..250
(destination peer key 1). -/
def dbC9 : MsgDB :=
  fun k => if k.2 = some 1 ∧ 1 ≤ k.1 ∧ k.1 ≤ 250 then some (mkMsg k.1) else none

/-- Remote for the claim C9 scenario: the page at offset 200 holds 40
already-known rows (ids 211..250) and 10 not-yet-seen rows (ids
251..260); every later page is empty. -/
def fetchC9 : Nat → List Msg :=
  fun n => if n = 200 then
      (List.range 40).map (fun j : Nat => mkMsg (211 + (j : Int))) ++
      (List.range 10).map (fun j : Nat => mkMsg (251 + (j : Int)))
    else []

/-- Ids 1..260: the ids present in the ledger after the C9 scenario. -/
def idsC9 : List Int := (List.range 260).map (fun j : Nat => (j : Int) + 1)

/-- Dialog pages for the claim C2 failing input: the initial listing page
has id set `{1}`, every page fetched by the loop has id set `{2}` — so
the page at offset 200 repeats the page at offset 100 exactly, and pages
keep repeating forever. -/
def cycPages : Nat → List Int := fun n => if n = 0 then [1] else [2]

/-- Stored row for the claim C3 counterexample: nonzero flags. -/
def mOld : Msg :=
  ⟨1, none, some 2, some "old", none, none, none, none, none, none, none, none, none, some 1⟩

/-- Incoming record for the claim C3 counterexample: same key `(1, 2)`,
nonzero flags, different text. -/
def mNew : Msg :=
  ⟨1, none, some 2, some "new", none, none, none, none, none, none, none, none, none, some 1⟩

/-- Table holding exactly `mOld` for the claim C3 counterexample. -/
def dbC3 : MsgDB := fun k => if k = (1, some 2) then some mOld else none

/-- Lowercase hex character (what `b2a_hex` emits). -/
def is_lower_hex (c : Char) : Prop :=
  (48 ≤ c.toNat ∧ c.toNat ≤ 57) ∨ (97 ≤ c.toNat ∧ c.toNat ≤ 102)

lemma log_msg_eq (db : MsgDB) (m : Msg) :
    log_msg db m =
      if ((db (msgKey m)).isNone || m.flags.isSome) = true
      then (fun k => if k = msgKey m then some m else db k, (db (msgKey m)).isNone)
      else (db, (db (msgKey m)).isNone) := rfl

lemma log_msg_snd (db : MsgDB) (m : Msg) : (log_msg db m).2 = (db (msgKey m)).isNone := by
  rw [log_msg_eq]
  split <;> rfl

lemma applyOne_apply (db : MsgDB) (m : Msg) (k : MsgKey) :
    applyOne db m k =
      if k = msgKey m ∧ ((db (msgKey m)).isNone || m.flags.isSome) = true then some m
      else db k := by
  unfold applyOne
  rw [log_msg_eq]
  by_cases hc : ((db (msgKey m)).isNone || m.flags.isSome) = true
  · rw [if_pos hc]
    by_cases hk : k = msgKey m
    · simp [hk, hc]
    · simp [hk]
  · rw [if_neg hc]
    simp [hc]

lemma applyList_apply (l : List Msg) : ∀ (db : MsgDB) (k : MsgKey),
    applyList db l k =
      match lastFlagged l k with
      | some x => some x
      | none =>
        match db k with
        | some r => some r
        | none => firstKey l k := by
  induction l with
  | nil =>
    intro db k
    show db k = _
    cases db k <;> rfl
  | cons m t ih =>
    intro db k
    show applyList (applyOne db m) t k = _
    rw [ih]
    by_cases hk : msgKey m = k
    · subst hk
      rw [applyOne_apply]
      simp only [true_and, if_pos rfl]
      by_cases hf : m.flags.isSome
      · have hc : ((db (msgKey m)).isNone || m.flags.isSome) = true := by simp [hf]
        simp only [hc, if_true]
        cases hlf : lastFlagged t (msgKey m) <;>
          simp [lastFlagged, firstKey, hlf, hf]
      · have hf' : m.flags.isSome = false := by simpa using hf
        cases hdb : db (msgKey m) with
        | none =>
          simp only [Option.isNone_none, Bool.true_or, if_true]
          cases hlf : lastFlagged t (msgKey m) <;>
            simp [lastFlagged, firstKey, hlf, hf', hdb]
        | some r =>
          simp only [Option.isNone_some, Bool.false_or, hf', Bool.false_eq_true, and_false,
            if_false]
          cases hlf : lastFlagged t (msgKey m) <;>
            simp [lastFlagged, firstKey, hlf, hf', hdb]
    · rw [applyOne_apply]
      have hk' : ¬ (k = msgKey m) := fun h => hk h.symm
      simp only [hk', false_and, if_false]
      cases hlf : lastFlagged t k <;>
        simp [lastFlagged, firstKey, hlf, hk]

lemma applyList_idem (db : MsgDB) (l : List Msg) :
    applyList (applyList db l) l = applyList db l := by
  funext k
  have h1 := applyList_apply l (applyList db l) k
  have h2 := applyList_apply l db k
  rw [h1, h2]
  cases hlf : lastFlagged l k with
  | some x => rfl
  | none =>
    cases hdb : db k with
    | some r => rfl
    | none =>
      cases hfk : firstKey l k with
      | some x => rfl
      | none => rfl

lemma applyOne_isSome (db : MsgDB) (m : Msg) (k : MsgKey) (h : (db k).isSome) :
    ((applyOne db m) k).isSome := by
  rw [applyOne_apply]
  split
  · rfl
  · exact h

lemma firstKey_isSome (l : List Msg) (m : Msg) (hm : m ∈ l) :
    (firstKey l (msgKey m)).isSome := by
  induction l with
  | nil => cases hm
  | cons m' t ih =>
    show (if msgKey m' = msgKey m then some m' else firstKey t (msgKey m)).isSome
    by_cases hk : msgKey m' = msgKey m
    · simp [hk]
    · rcases List.mem_cons.mp hm with rfl | hm'
      · exact absurd rfl hk
      · simp [hk, ih hm']

lemma applyList_isSome_of_mem (db : MsgDB) (l : List Msg) (m : Msg) (hm : m ∈ l) :
    ((applyList db l) (msgKey m)).isSome := by
  rw [applyList_apply]
  cases hlf : lastFlagged l (msgKey m) with
  | some x => rfl
  | none =>
    cases hdb : db (msgKey m) with
    | some r => rfl
    | none => exact firstKey_isSome l m hm

lemma log_msgs_fst (l : List Msg) : ∀ db : MsgDB, (log_msgs db l).1 = applyList db l := by
  induction l with
  | nil => intro db; rfl
  | cons m t ih => intro db; exact ih (applyOne db m)

lemma log_msgs_hits_zero (l : List Msg) : ∀ db : MsgDB,
    (∀ m ∈ l, (db (msgKey m)).isSome) → (log_msgs db l).2 = 0 := by
  induction l with
  | nil => intro db _; rfl
  | cons m t ih =>
    intro db h
    have hm : (db (msgKey m)).isNone = false := by
      have := h m (List.mem_cons_self m t)
      simp [Option.isNone_eq_false_iff, this]
    show (if (log_msg db m).2 = true then 1 else 0) + (log_msgs (applyOne db m) t).2 = 0
    rw [log_msg_snd, hm]
    have ht : (log_msgs (applyOne db m) t).2 = 0 :=
      ih (applyOne db m) (fun m' hm' => applyOne_isSome db m _ (h m' (List.mem_cons_of_mem m hm')))
    simp [ht]

/-- Claim C7: applying the same message batch to the ledger twice is the
same as applying it once — the second `process` call leaves the message
table unchanged (even stronger than "identical except for flag
upgrades": a REPLACE by the very same record is the identity) and
reports 0 newly inserted messages. -/
theorem claim_C7 (db : MsgDB) (l : List Msg) :
    process (process db l).1 l = ((process db l).1, (process db l).2.1, 0) := by
  cases l with
  | nil => rfl
  | cons m t =>
    show process (log_msgs db (m :: t)).1 (m :: t) =
      ((log_msgs db (m :: t)).1, true, 0)
    have hdb1 : (log_msgs db (m :: t)).1 = applyList db (m :: t) := log_msgs_fst _ db
    show ((log_msgs (log_msgs db (m :: t)).1 (m :: t)).1, true,
        (log_msgs (log_msgs db (m :: t)).1 (m :: t)).2) = _
    rw [hdb1, log_msgs_fst, applyList_idem,
      log_msgs_hits_zero _ _ (fun m' hm' => applyList_isSome_of_mem db (m :: t) m' hm')]

lemma log_msg_known (db : MsgDB) (m : Msg) (h : db (msgKey m) = some m) :
    log_msg db m = (db, false) := by
  have h1 : (db (msgKey m)).isNone = false := by rw [h]; rfl
  rw [log_msg_eq, h1]
  by_cases hf : m.flags.isSome
  · simp only [Bool.false_or, hf, if_true]
    refine Prod.ext ?_ rfl
    funext k
    show (if k = msgKey m then some m else db k) = db k
    by_cases hk : k = msgKey m
    · rw [if_pos hk, hk, h]
    · rw [if_neg hk]
  · have hf' : m.flags.isSome = false := by simpa using hf
    simp [hf']

lemma log_msgs_known (l : List Msg) : ∀ db : MsgDB,
    (∀ m ∈ l, db (msgKey m) = some m) → log_msgs db l = (db, 0) := by
  induction l with
  | nil => intro db _; rfl
  | cons m t ih =>
    intro db h
    have hm := log_msg_known db m (h m (List.mem_cons_self m t))
    show (let r := log_msg db m
          let s := log_msgs r.1 t
          (s.1, (if r.2 then 1 else 0) + s.2)) = (db, 0)
    rw [hm]
    have ht := ih db (fun m' hm' => h m' (List.mem_cons_of_mem m hm'))
    simp [ht]

lemma process_known (db : MsgDB) (l : List Msg) (hl : l ≠ [])
    (h : ∀ m ∈ l, db (msgKey m) = some m) : process db l = (db, true, 0) := by
  cases l with
  | nil => exact absurd rfl hl
  | cons m t =>
    show ((log_msgs db (m :: t)).1, true, (log_msgs db (m :: t)).2) = (db, true, 0)
    rw [log_msgs_known (m :: t) db h]

/-- Claim C3 counterexample: the stored row under key `(1, some 2)` has
nonzero flags (`some 1`), so by the claim a later upsert of a record with
the same key must leave it completely unchanged; but `log_msg` overwrites
it (the code's test is `if ret or 'flags' in msg`, i.e. mere presence of
a flags field, with no look at the stored flags), replacing `mOld` by the
different record `mNew`. -/
theorem claim_C3_counterexample :
    mOld.flags = some 1 ∧ dbC3 (msgKey mNew) = some mOld ∧
    (log_msg dbC3 mNew).1 (msgKey mNew) = some mNew ∧
    (log_msg dbC3 mNew).2 = false ∧ mNew ≠ mOld := by decide

/-- Claim C3 amended: for a row already stored under `(id, dest)`, a later
`log_msg` of a record with the same key reports the row as not new, and
overwrites it exactly when the incoming record carries a `flags` field
(of any value — the stored row's flags are never consulted); rows under
every other key are unaffected. -/
theorem claim_C3_amended (db : MsgDB) (m r : Msg) (h : db (msgKey m) = some r) :
    (log_msg db m).2 = false ∧
    (log_msg db m).1 (msgKey m) = (if m.flags.isSome then some m else some r) ∧
    (∀ k : MsgKey, k ≠ msgKey m → (log_msg db m).1 k = db k) := by
  have h1 : (db (msgKey m)).isNone = false := by rw [h]; rfl
  refine ⟨by rw [log_msg_snd, h1], ?_, ?_⟩
  · show applyOne db m (msgKey m) = _
    rw [applyOne_apply]
    by_cases hf : m.flags.isSome
    · simp [h1, hf]
    · have hf' : m.flags.isSome = false := by simpa using hf
      simp [h1, hf', h]
  · intro k hk
    show applyOne db m k = db k
    rw [applyOne_apply, if_neg]
    intro hcontra
    exact hk hcontra.1

/-- Witness for claim C3 amended at the concrete counterexample input. -/
theorem claim_C3_witness :
    (log_msg dbC3 mNew).2 = false ∧
    (log_msg dbC3 mNew).1 (msgKey mNew) = (if mNew.flags.isSome then some mNew else some mOld) ∧
    (∀ k : MsgKey, k ≠ msgKey mNew → (log_msg dbC3 mNew).1 k = dbC3 k) :=
  claim_C3_amended dbC3 mNew mOld (by decide)

lemma mem_int_range (minv maxv n : Int) :
    n ∈ int_range minv maxv ↔ minv ≤ n ∧ n ≤ maxv := by
  unfold int_range
  simp only [List.mem_map, List.mem_range]
  constructor
  · rintro ⟨k, hk, rfl⟩
    omega
  · intro h
    refine ⟨(n - minv).toNat, by omega, by omega⟩

lemma int_range_pairwise (minv maxv : Int) : (int_range minv maxv).Pairwise (· < ·) := by
  unfold int_range
  exact (List.pairwise_lt_range _).map _ (fun a b hab => by omega)

/-- Claim C5: `find_holes minv maxv s` yields exactly the integers of
`[minv, maxv]` not in `s`, in strictly increasing order; in particular
for known ids `{1,2,4,7}` with max known 7 the holes are `{3,5,6}`, and
when `s` covers the whole interval the result is empty. -/
theorem claim_C5 :
    (∀ (minv maxv : Int) (s : List Int) (n : Int),
      n ∈ find_holes minv maxv s ↔ (minv ≤ n ∧ n ≤ maxv ∧ n ∉ s)) ∧
    (∀ (minv maxv : Int) (s : List Int), (find_holes minv maxv s).Pairwise (· < ·)) ∧
    find_holes 1 7 [1, 2, 4, 7] = [3, 5, 6] ∧
    (∀ (minv maxv : Int) (s : List Int),
      (∀ n : Int, minv ≤ n → n ≤ maxv → n ∈ s) → find_holes minv maxv s = []) := by
  refine ⟨?_, ?_, by decide, ?_⟩
  · intro minv maxv s n
    unfold find_holes
    rw [List.mem_filter, mem_int_range]
    simp [List.contains, List.elem_iff, and_assoc]
  · intro minv maxv s
    exact (int_range_pairwise minv maxv).sublist (List.filter_sublist _)
  · intro minv maxv s h
    unfold find_holes
    rw [List.filter_eq_nil_iff]
    intro n hn
    have := mem_int_range minv maxv n |>.mp hn
    simp [List.contains, List.elem_iff, h n this.1 this.2]

/-- Witness for claim C5 at a concrete input: 3 is a hole of `[1,7]` for
known ids `{1,2,4,7}`. -/
theorem claim_C5_witness : (3 : Int) ∈ find_holes 1 7 [1, 2, 4, 7] :=
  (claim_C5.1 1 7 [1, 2, 4, 7] 3).mpr (by decide)

/-- Claim C8: in the hole-retry loop every failing item is requeued into
the fresh `newlist` (never discarded, never re-appended to the list being
iterated), and if every item of the retry list fails at most once before
succeeding, the list is empty after two passes — stated over arbitrary
interleaved shuffles (`random.shuffle` permutes the list before each
pass). -/
theorem claim_C8 (l p1 p2 : List Nat) (h1 : p1.Perm l) (hb : ∀ b ∈ l, b ≤ 1)
    (h2 : p2.Perm (retry_pass p1)) : retry_pass p2 = [] := by
  have hz : ∀ b ∈ p2, b = 0 := by
    intro b hb2
    have hb1 : b ∈ retry_pass p1 := h2.subset hb2
    unfold retry_pass at hb1
    rw [List.mem_filterMap] at hb1
    obtain ⟨a, ha, hfa⟩ := hb1
    have hle : a ≤ 1 := hb a (h1.subset ha)
    by_cases h0 : a = 0
    · simp [h0] at hfa
    · rw [if_neg h0] at hfa
      have hab : a - 1 = b := Option.some.inj hfa
      omega
  unfold retry_pass
  rw [List.filterMap_eq_nil_iff]
  intro a ha
  simp [hz a ha]

/-- Witness for claim C8: a two-item retry list where each item fails
exactly once converges to empty in two passes (identity shuffles). -/
theorem claim_C8_witness : retry_pass (retry_pass [1, 1]) = [] :=
  claim_C8 [1, 1] [1, 1] (retry_pass [1, 1]) (List.Perm.refl _) (by decide) (List.Perm.refl _)

lemma lru_step_capacity (c : LRUCache) (op : LRUOp) : (lru_step c op).capacity = c.capacity := by
  cases op with
  | get k =>
    show ((lru_get c k).2).capacity = c.capacity
    unfold lru_get
    cases od_get c.cache k <;> rfl
  | getitem k =>
    show ((lru_getitem c k).2).capacity = c.capacity
    unfold lru_getitem
    cases od_get c.cache k <;> rfl
  | set k v =>
    show (lru_setitem c k v).capacity = c.capacity
    unfold lru_setitem
    split
    · rfl
    · split <;> rfl

lemma od_erase_length (l : List (Int × Int)) (k : Int) (h : (od_get l k).isSome) :
    (od_erase l k).length = l.length - 1 := by
  unfold od_get at h
  obtain ⟨e, he⟩ : ∃ e, l.find? (fun e => e.1 == k) = some e := by
    cases hf : l.find? (fun e => e.1 == k) with
    | none => rw [hf] at h; simp at h
    | some e => exact ⟨e, rfl⟩
  show (l.eraseP (fun e => e.1 == k)).length = l.length - 1
  exact List.length_eraseP_of_mem (List.mem_of_find?_eq_some he)
    (@List.find?_some _ (fun e => e.1 == k) e l he)

lemma lru_step_length (c : LRUCache) (op : LRUOp) (hcap : 1 ≤ c.capacity)
    (h : c.cache.length ≤ c.capacity) : (lru_step c op).cache.length ≤ c.capacity := by
  cases op with
  | get k =>
    show ((lru_get c k).2).cache.length ≤ c.capacity
    unfold lru_get
    cases hg : od_get c.cache k with
    | none => exact h
    | some v =>
      have hl := od_erase_length c.cache k (by rw [hg]; rfl)
      simp only [List.length_append, hl, List.length_cons, List.length_nil]
      omega
  | getitem k =>
    show ((lru_getitem c k).2).cache.length ≤ c.capacity
    unfold lru_getitem
    cases hg : od_get c.cache k with
    | none => exact h
    | some v =>
      have hl := od_erase_length c.cache k (by rw [hg]; rfl)
      simp only [List.length_append, hl, List.length_cons, List.length_nil]
      omega
  | set k v =>
    show (lru_setitem c k v).cache.length ≤ c.capacity
    unfold lru_setitem
    by_cases h1 : (od_get c.cache k).isSome
    · rw [if_pos h1]
      have hl := od_erase_length c.cache k h1
      have hne : c.cache.length ≠ 0 := by
        intro h0
        have : c.cache = [] := List.length_eq_zero.mp h0
        rw [this] at h1
        simp [od_get] at h1
      simp only [List.length_append, hl, List.length_cons, List.length_nil]
      omega
    · rw [if_neg h1]
      by_cases h2 : c.capacity ≤ c.cache.length
      · rw [if_pos h2]
        simp only [List.length_append, List.length_drop, List.length_cons, List.length_nil]
        omega
      · rw [if_neg h2]
        simp only [List.length_append, List.length_cons, List.length_nil]
        omega

lemma lru_foldl_ok (ops : List LRUOp) : ∀ c : LRUCache, 1 ≤ c.capacity →
    c.cache.length ≤ c.capacity →
    (ops.foldl lru_step c).cache.length ≤ c.capacity ∧
    (ops.foldl lru_step c).capacity = c.capacity := by
  induction ops with
  | nil => exact fun c _ h2 => ⟨h2, rfl⟩
  | cons op rest ih =>
    intro c h1 h2
    have hcap := lru_step_capacity c op
    have hlen := lru_step_length c op h1 h2
    have hrec := ih (lru_step c op) (hcap ▸ h1) (hcap ▸ hlen)
    show (rest.foldl lru_step (lru_step c op)).cache.length ≤ c.capacity ∧
      (rest.foldl lru_step (lru_step c op)).capacity = c.capacity
    exact ⟨le_trans hrec.1 (le_of_eq hcap), hrec.2.trans hcap⟩

/-- Claim C10: for every capacity `c ≥ 1` the peer memo cache keeps
`len(cache) ≤ c` after every sequence of `get`, `__getitem__` and
`__setitem__` operations from the empty cache; inserting a new key into a
full cache evicts exactly one entry — the least recently used one (the
head of the order) — and a successful lookup (either operation) returns
the stored value and moves the accessed key to the most-recently-used
end. -/
theorem claim_C10 (cap : Nat) (hcap : 1 ≤ cap) :
    (∀ ops : List LRUOp, (lru_run cap ops).cache.length ≤ cap) ∧
    (∀ (c : LRUCache) (k v : Int), c.capacity = cap → c.cache.length = cap →
      od_get c.cache k = none →
      lru_setitem c k v = ⟨cap, c.cache.drop 1 ++ [(k, v)]⟩ ∧
      (c.cache.drop 1 ++ [(k, v)]).length = cap) ∧
    (∀ (c : LRUCache) (k v : Int), od_get c.cache k = some v →
      lru_getitem c k = (some v, ⟨c.capacity, od_erase c.cache k ++ [(k, v)]⟩) ∧
      lru_get c k = (some v, ⟨c.capacity, od_erase c.cache k ++ [(k, v)]⟩)) := by
  refine ⟨?_, ?_, ?_⟩
  · intro ops
    exact (lru_foldl_ok ops ⟨cap, []⟩ hcap (by simp)).1
  · intro c k v hc hlen hg
    have h1 : ¬ (od_get c.cache k).isSome = true := by rw [hg]; simp
    have h2 : c.capacity ≤ c.cache.length := by omega
    constructor
    · unfold lru_setitem
      rw [if_neg h1, if_pos h2, hc]
    · simp only [List.length_append, List.length_drop, List.length_cons, List.length_nil]
      omega
  · intro c k v hg
    constructor
    · unfold lru_getitem
      rw [hg]
    · unfold lru_get
      rw [hg]

/-- Witness for claim C10 at capacity 1: after two insertions the cache
still holds at most one entry. -/
theorem claim_C10_witness :
    (lru_run 1 [LRUOp.set 1 2, LRUOp.set 2 3]).cache.length ≤ 1 :=
  (claim_C10 1 (le_refl 1)).1 [LRUOp.set 1 2, LRUOp.set 2 3]

lemma dialog_loop_cyc (fuel : Nat) : ∀ (dlist : List Int) (dcount : Nat),
    (1 : Int) ∈ dlist → dcount ≠ 0 →
    dialog_loop cycPages fuel dlist [2] dcount = none := by
  induction fuel with
  | zero => intro _ _ _ _; rfl
  | succ fuel ih =>
    intro dlist dcount h1 hd
    have hfetch : cycPages dcount = [2] := by
      unfold cycPages
      rw [if_neg hd]
    show (if ([2] : List Int) = [] then some dlist
      else if (cycPages dcount).toFinset = dlist.toFinset then some dlist
      else dialog_loop cycPages fuel (dlist ++ cycPages dcount) (cycPages dcount)
        (dcount + 100)) = none
    rw [hfetch, if_neg (by simp)]
    have hne : ¬ (([2] : List Int).toFinset = dlist.toFinset) := by
      intro h
      have h1' : (1 : Int) ∈ ([2] : List Int).toFinset := by
        rw [h]
        exact List.mem_toFinset.mpr h1
      simp at h1'
    rw [if_neg hne]
    exact ih (dlist ++ [2]) (dcount + 100) (by simp [h1]) (by omega)

/-- Claim C2 (code bug): on a page sequence whose pages cycle — initial
page ids `{1}`, then ids `{2}` at every later offset, so the page at
offset 200 repeats the page at offset 100 exactly — the claimed
set-equality check against the immediately preceding page would stop the
enumeration at the repeat; the code instead compares each new page
against the accumulated list (`lastitems` is initialised as an alias of
`dlist` and never reassigned), misses the repeat, and never terminates:
for every fuel the loop fails to finish. -/
theorem claim_C2_nontermination (fuel : Nat) :
    export_text_dialogs cycPages fuel = none := by
  unfold export_text_dialogs
  have h0 : cycPages 0 = [1] := rfl
  rw [h0]
  cases fuel with
  | zero => rfl
  | succ fuel =>
    have h100 : cycPages 100 = [2] := rfl
    show (if ([1] : List Int) = [] then some [1]
      else if (cycPages 100).toFinset = ([1] : List Int).toFinset then some [1]
      else dialog_loop cycPages fuel ([1] ++ cycPages 100) (cycPages 100) (100 + 100)) = none
    rw [h100, if_neg (by simp), if_neg (by decide)]
    exact dialog_loop_cyc fuel ([1] ++ [2]) (100 + 100) (by simp) (by omega)

lemma hist_loop1_stop (fetch : Nat → List Msg) (fuel : Nat) (st : LoopState)
    (h : ¬ (st.res.1 = true ∧ st.res.2 = 0)) : hist_loop1 fetch fuel st = some st := by
  cases fuel with
  | zero => exact if_neg h
  | succ fuel => exact if_neg h

lemma hist_loop2_stop (fetch : Nat → List Msg) (fuel : Nat) (st : LoopState)
    (h : ¬ st.res.1 = true) : hist_loop2 fetch fuel st = some st := by
  cases fuel with
  | zero => exact if_neg h
  | succ fuel => exact if_neg h

lemma hist_loop1_known (fetch : Nat → List Msg) (db : MsgDB) (p : Nat)
    (hknown : ∀ k, k < p → ∀ m ∈ fetch (100 * k), db (msgKey m) = some m)
    (hne : ∀ k, k < p → fetch (100 * k) ≠ [])
    (hend : fetch (100 * p) = []) :
    ∀ (n : Nat), ∀ (i fc ins fuel : Nat), i + n = p → n + 1 ≤ fuel →
      hist_loop1 fetch fuel ⟨db, 100 * i, (true, 0), fc, ins⟩ =
        some ⟨db, 100 * (p + 1), (false, 0), fc + (n + 1), ins⟩ := by
  intro n
  induction n with
  | zero =>
    intro i fc ins fuel hi hfuel
    obtain ⟨fuel, rfl⟩ : ∃ f, fuel = f + 1 := ⟨fuel - 1, by omega⟩
    have hi' : i = p := by omega
    rw [hi']
    show (if ((true, (0 : Nat)).1 = true ∧ (true, (0 : Nat)).2 = 0) then
        hist_loop1 fetch fuel (hist_step fetch ⟨db, 100 * p, (true, 0), fc, ins⟩)
      else some ⟨db, 100 * p, (true, 0), fc, ins⟩) = _
    rw [if_pos ⟨rfl, rfl⟩]
    have hstep : hist_step fetch ⟨db, 100 * p, (true, 0), fc, ins⟩ =
        ⟨db, 100 * (p + 1), (false, 0), fc + (0 + 1), ins⟩ := by
      unfold hist_step
      rw [hend]
      show LoopState.mk db (100 * p + 100) (false, 0) (fc + 1) (ins + 0) = _
      rw [show 100 * p + 100 = 100 * (p + 1) by ring, Nat.add_zero ins]
    rw [hstep, hist_loop1_stop fetch fuel _ (by simp)]
  | succ n ih =>
    intro i fc ins fuel hi hfuel
    obtain ⟨fuel, rfl⟩ : ∃ f, fuel = f + 1 := ⟨fuel - 1, by omega⟩
    show (if ((true, (0 : Nat)).1 = true ∧ (true, (0 : Nat)).2 = 0) then
        hist_loop1 fetch fuel (hist_step fetch ⟨db, 100 * i, (true, 0), fc, ins⟩)
      else some ⟨db, 100 * i, (true, 0), fc, ins⟩) = _
    rw [if_pos ⟨rfl, rfl⟩]
    have hip : i < p := by omega
    have hstep : hist_step fetch ⟨db, 100 * i, (true, 0), fc, ins⟩ =
        ⟨db, 100 * (i + 1), (true, 0), fc + 1, ins⟩ := by
      unfold hist_step
      rw [process_known db (fetch (100 * i)) (hne i hip) (hknown i hip)]
      show LoopState.mk db (100 * i + 100) (true, 0) (fc + 1) (ins + 0) = _
      rw [show 100 * i + 100 = 100 * (i + 1) by ring, Nat.add_zero ins]
    rw [hstep, ih (i + 1) (fc + 1) ins fuel (by omega) (by omega)]
    have : fc + 1 + (n + 1) = fc + (n + 1 + 1) := by ring
    rw [this]

/-- Claim C1 amended: re-running the per-dialog history sync from offset 0
on a dialog whose `p ≥ 1` pages of history are all already in the ledger
(unchanged remote, no forced resync) inserts 0 rows and persists the
cursor `max (100 * (p + 1)) finished` — it stays caught up when previously
finished there — but it issues `p + 1` history fetches (one per known
page plus the final empty page), a full overlap scan, not a single
overlap-probe fetch: the first loop's condition
`res[0] is True and not res[1]` keeps paging precisely while pages
contain nothing new. -/
theorem claim_C1_amended (fetch : Nat → List Msg) (db : MsgDB) (finished : Nat)
    (p fuel : Nat) (hp : 1 ≤ p) (hfuel : p ≤ fuel)
    (hknown : ∀ k, k < p → ∀ m ∈ fetch (100 * k), db (msgKey m) = some m)
    (hne : ∀ k, k < p → fetch (100 * k) ≠ [])
    (hend : fetch (100 * p) = []) :
    export_for fetch db finished 0 false fuel =
      some ⟨db, max (100 * (p + 1)) finished, p + 1, 0⟩ := by
  have hprobe : process db (fetch 0) = (db, true, 0) := by
    have h0 : (100 : Nat) * 0 = 0 := by ring
    have := process_known db (fetch 0) (h0 ▸ hne 0 hp) (fun m hm => (h0 ▸ hknown 0 hp) m hm)
    exact this
  have hl1 := hist_loop1_known fetch db p hknown hne hend (p - 1) 1 1 0 fuel
    (by omega) (by omega)
  rw [show (100 : Nat) * 1 = 100 by ring] at hl1
  show (match hist_loop1 fetch fuel
      (⟨(process db (fetch 0)).1, 100, (process db (fetch 0)).2, 1,
        (process db (fetch 0)).2.2⟩ : LoopState) with
    | none => none
    | some st1 =>
      match hist_loop2 fetch fuel
        { st1 with pos := max st1.pos finished } with
      | none => none
      | some st3 => some (⟨st3.db, st3.pos, st3.fetches, st3.inserted⟩ : SyncResult)) = _
  rw [hprobe]
  show (match hist_loop1 fetch fuel (⟨db, 100, (true, 0), 1, 0⟩ : LoopState) with
    | none => none
    | some st1 =>
      match hist_loop2 fetch fuel
        { st1 with pos := max st1.pos finished } with
      | none => none
      | some st3 => some (⟨st3.db, st3.pos, st3.fetches, st3.inserted⟩ : SyncResult)) = _
  rw [hl1]
  show (match hist_loop2 fetch fuel
      (⟨db, max (100 * (p + 1)) finished, (false, 0), 1 + (p - 1 + 1), 0⟩ : LoopState) with
    | none => none
    | some st3 => some (⟨st3.db, st3.pos, st3.fetches, st3.inserted⟩ : SyncResult)) = _
  rw [hist_loop2_stop fetch fuel _ (by simp)]
  show some (⟨db, max (100 * (p + 1)) finished, 1 + (p - 1 + 1), 0⟩ : SyncResult) = _
  rw [show 1 + (p - 1 + 1) = p + 1 by omega]

/-- Witness for claim C1 amended: a one-page fully-known dialog with
persisted cursor 200 re-syncs with two fetches, zero inserts, and keeps
cursor 200. -/
theorem claim_C1_witness :
    export_for fetchW dbW 200 0 false 1 =
      some ⟨dbW, max (100 * (1 + 1)) 200, 1 + 1, 0⟩ :=
  claim_C1_amended fetchW dbW 200 1 1 (le_refl 1) (le_refl 1)
    (by
      intro k hk m hm
      have hk0 : k = 0 := by omega
      subst hk0
      have hm' : m ∈ [mkMsg 1] := hm
      have : m = mkMsg 1 := List.mem_singleton.mp hm'
      subst this
      rfl)
    (by
      intro k hk
      have hk0 : k = 0 := by omega
      subst hk0
      decide)
    (by decide)

/-- Claim C1 counterexample: a dialog whose two-page history is already
fully in the ledger with persisted cursor 300 and unchanged remote.  The
claim asserts exactly one overlap-probe fetch; the code issues 3 fetches
(offsets 0, 100 and the terminal empty 200).  Inserted rows are 0 and the
cursor stays 300, as claimed. -/
theorem claim_C1_counterexample :
    (export_for fetchC1 dbC1 300 0 false 5).map (fun r => (r.fetches, r.inserted, r.cursor)) =
      some (3, 0, 300) ∧ (3 : Nat) ≠ 1 := by
  exact ⟨by decide, by decide⟩

/-- Claim C9 counterexample: the spec scenario — 250 known messages,
persisted cursor 200, the page at offset 200 holding 40 known and 10 new
rows, nothing beyond.  The engine does insert exactly 10 rows and fetch
exactly one further page which yields zero new rows, but it persists
cursor 400, not 300: `pos += 100` runs after the empty page before the
loop exits, so `set_finished` records 400. -/
theorem claim_C9_counterexample :
    (export_for fetchC9 dbC9 200 200 false 5).map (fun r => (r.cursor, r.fetches, r.inserted)) =
      some (400, 2, 10) ∧ (400 : Nat) ≠ 300 := by
  exact ⟨by decide, by decide⟩

set_option maxRecDepth 100000 in
/-- Claim C9 amended: in the spec scenario (250 known messages, cursor
200, next page with 10 not-yet-seen rows) the resumed sync inserts
exactly the 10 new rows, fetches one further page, observes zero new rows
there, and persists cursor 400 (the offset is advanced 100 past the empty
page); the subsequent hole pass over the covered id space `[1, 260]`
returns an empty hole set. -/
theorem claim_C9_amended :
    (export_for fetchC9 dbC9 200 200 false 5).map (fun r => (r.cursor, r.fetches, r.inserted)) =
      some (400, 2, 10) ∧
    find_holes 1 260 idsC9 = [] := by
  exact ⟨by decide, by decide⟩

lemma key_shift_recover (t i : Nat) (h : i < 2 ^ 32) : (t <<< 32 ||| i) >>> 32 = t := by
  apply Nat.eq_of_testBit_eq
  intro j
  rw [Nat.testBit_shiftRight, Nat.testBit_lor, Nat.testBit_shiftLeft]
  have hi : i.testBit (32 + j) = false := by
    apply Nat.testBit_lt_two_pow
    calc i < 2 ^ 32 := h
    _ ≤ 2 ^ (32 + j) := Nat.pow_le_pow_right (by norm_num) (by omega)
  simp [hi, Nat.add_sub_cancel_left]

lemma key_mod_recover (t i : Nat) (h : i < 2 ^ 32) : (t <<< 32 ||| i) % 2 ^ 32 = i := by
  apply Nat.eq_of_testBit_eq
  intro j
  rw [Nat.testBit_mod_two_pow, Nat.testBit_lor, Nat.testBit_shiftLeft]
  by_cases hj : j < 32
  · simp [hj, show ¬ 32 ≤ j by omega]
  · have hi : i.testBit j = false := by
      apply Nat.testBit_lt_two_pow
      calc i < 2 ^ 32 := h
      _ ≤ 2 ^ j := Nat.pow_le_pow_right (by norm_num) (by omega)
    simp [hj, hi]

lemma key_inj (t1 i1 t2 i2 : Nat) (h1 : i1 < 2 ^ 32) (h2 : i2 < 2 ^ 32)
    (h : t1 <<< 32 ||| i1 = t2 <<< 32 ||| i2) : t1 = t2 ∧ i1 = i2 := by
  constructor
  · rw [← key_shift_recover t1 i1 h1, ← key_shift_recover t2 i2 h2, h]
  · rw [← key_mod_recover t1 i1 h1, ← key_mod_recover t2 i2 h2, h]

lemma to_id_ofNat (t i : Nat) (a : Int) :
    tgl_peer_id_t.to_id ⟨(t : Int), (i : Int), a⟩ = ((t <<< 32 ||| i : Nat) : Int) := by
  show Int.lor ((t : Int) <<< (32 : Int)) (i : Int) = _
  rw [show ((32 : Int)) = ((32 : Nat) : Int) from rfl, Int.shiftLeft_coe_nat]
  rfl

/-- Claim C4 counterexample: two peers that agree in type and id but
differ in the access credential receive the same canonical key —
`to_id` is `peer_type << 32 | peer_id` and never reads `access_hash`, so
the key function is not injective on (type, id, credential) triples. -/
theorem claim_C4_counterexample :
    tgl_peer_id_t.to_id ⟨1, 5, 0⟩ = tgl_peer_id_t.to_id ⟨1, 5, 7⟩ ∧
    (⟨1, 5, 0⟩ : tgl_peer_id_t) ≠ (⟨1, 5, 7⟩ : tgl_peer_id_t) := by
  exact ⟨by decide, by decide⟩

/-- Claim C4 amended: the canonical key combines only the type
discriminant and the numeric id (`peer_type << 32 | peer_id`; the access
credential is stored in separate columns and is not part of the key), and
it is injective on (type, id) pairs with a non-negative type and an id in
`[0, 2^32)`: two peers differing in type or id get distinct keys. -/
theorem claim_C4_amended (p q : tgl_peer_id_t)
    (hp1 : 0 ≤ p.peer_type) (hp2 : 0 ≤ p.peer_id) (hp3 : p.peer_id < 2 ^ 32)
    (hq1 : 0 ≤ q.peer_type) (hq2 : 0 ≤ q.peer_id) (hq3 : q.peer_id < 2 ^ 32)
    (h : tgl_peer_id_t.to_id p = tgl_peer_id_t.to_id q) :
    p.peer_type = q.peer_type ∧ p.peer_id = q.peer_id := by
  obtain ⟨pt, pi, pa⟩ := p
  obtain ⟨qt, qi, qa⟩ := q
  simp only at hp1 hp2 hp3 hq1 hq2 hq3 h ⊢
  obtain ⟨t1, rfl⟩ : ∃ t : Nat, pt = (t : Int) := ⟨pt.toNat, (Int.toNat_of_nonneg hp1).symm⟩
  obtain ⟨i1, rfl⟩ : ∃ i : Nat, pi = (i : Int) := ⟨pi.toNat, (Int.toNat_of_nonneg hp2).symm⟩
  obtain ⟨t2, rfl⟩ : ∃ t : Nat, qt = (t : Int) := ⟨qt.toNat, (Int.toNat_of_nonneg hq1).symm⟩
  obtain ⟨i2, rfl⟩ : ∃ i : Nat, qi = (i : Int) := ⟨qi.toNat, (Int.toNat_of_nonneg hq2).symm⟩
  rw [to_id_ofNat, to_id_ofNat] at h
  have h' : (t1 <<< 32 ||| i1 : Nat) = t2 <<< 32 ||| i2 := by exact_mod_cast h
  have hi1 : i1 < 2 ^ 32 := by exact_mod_cast hp3
  have hi2 : i2 < 2 ^ 32 := by exact_mod_cast hq3
  have := key_inj t1 i1 t2 i2 hi1 hi2 h'
  exact ⟨by exact_mod_cast this.1, by exact_mod_cast this.2⟩

/-- Witness for claim C4 amended at a concrete pair of peers with equal
keys. -/
theorem claim_C4_witness :
    (⟨1, 5, 0⟩ : tgl_peer_id_t).peer_type = (⟨1, 5, 9⟩ : tgl_peer_id_t).peer_type ∧
    (⟨1, 5, 0⟩ : tgl_peer_id_t).peer_id = (⟨1, 5, 9⟩ : tgl_peer_id_t).peer_id :=
  claim_C4_amended ⟨1, 5, 0⟩ ⟨1, 5, 9⟩ (by decide) (by decide) (by decide)
    (by decide) (by decide) (by decide) (by decide)

lemma hex_val_hex_digit (n : Nat) (h : n < 16) : hex_val (hex_digit n) = some n := by
  interval_cases n <;> decide

lemma hex_digit_ne_dollar (n : Nat) (h : n < 16) : hex_digit n ≠ '$' := by
  interval_cases n <;> decide

lemma hex_digit_lower (n : Nat) (h : n < 16) : is_lower_hex (hex_digit n) := by
  interval_cases n <;> simp only [is_lower_hex] <;> decide

lemma byte_hex_bound (b : Nat) (h : b < 256) : b / 16 < 16 ∧ b % 16 < 16 := by omega

lemma parse_hex_flatMap (bs : List Nat) (h : ∀ b ∈ bs, b < 256) :
    parse_hex (bs.flatMap byte_hex) = some bs := by
  induction bs with
  | nil => rfl
  | cons b rest ih =>
    have hb := h b (List.mem_cons_self b rest)
    have h1 : b / 16 < 16 := by omega
    have h2 : b % 16 < 16 := by omega
    show parse_hex (hex_digit (b / 16) :: hex_digit (b % 16) :: rest.flatMap byte_hex) = _
    unfold parse_hex
    rw [hex_val_hex_digit _ h1, hex_val_hex_digit _ h2,
      ih (fun b' hb' => h b' (List.mem_cons_of_mem b hb'))]
    show some ((16 * (b / 16) + b % 16) :: rest) = some (b :: rest)
    rw [show 16 * (b / 16) + b % 16 = b by omega]

lemma strip_dollars_flatMap (bs : List Nat) (h : ∀ b ∈ bs, b < 256) :
    tgl_peer_id_t.strip_dollars (bs.flatMap byte_hex) = bs.flatMap byte_hex := by
  cases bs with
  | nil => rfl
  | cons b rest =>
    have hb := h b (List.mem_cons_self b rest)
    show tgl_peer_id_t.strip_dollars
      (hex_digit (b / 16) :: hex_digit (b % 16) :: rest.flatMap byte_hex) = _
    unfold tgl_peer_id_t.strip_dollars
    rw [if_neg (hex_digit_ne_dollar (b / 16) (by omega))]
    rfl

lemma to_le_bytes_length (w : Nat) : ∀ v : Nat, (to_le_bytes w v).length = w := by
  induction w with
  | zero => intro v; rfl
  | succ w ih =>
    intro v
    show (v % 256 :: to_le_bytes w (v / 256)).length = w + 1
    rw [List.length_cons, ih (v / 256)]

lemma to_le_bytes_lt (w : Nat) : ∀ v : Nat, ∀ b ∈ to_le_bytes w v, b < 256 := by
  induction w with
  | zero => intro v b hb; cases hb
  | succ w ih =>
    intro v b hb
    rcases List.mem_cons.mp hb with rfl | hb'
    · omega
    · exact ih (v / 256) b hb'

lemma from_to_le_bytes (w : Nat) : ∀ v : Nat, v < 256 ^ w →
    from_le_bytes (to_le_bytes w v) = v := by
  induction w with
  | zero =>
    intro v h
    have : v = 0 := by simpa using h
    simp [this, to_le_bytes, from_le_bytes]
  | succ w ih =>
    intro v h
    show v % 256 + 256 * from_le_bytes (to_le_bytes w (v / 256)) = v
    rw [ih (v / 256) (by
      rw [pow_succ] at h
      omega)]
    omega

lemma to_from_le_bytes (bs : List Nat) (h : ∀ b ∈ bs, b < 256) :
    to_le_bytes bs.length (from_le_bytes bs) = bs := by
  induction bs with
  | nil => rfl
  | cons b rest ih =>
    have hb := h b (List.mem_cons_self b rest)
    show (b + 256 * from_le_bytes rest) % 256 ::
      to_le_bytes rest.length ((b + 256 * from_le_bytes rest) / 256) = b :: rest
    rw [show (b + 256 * from_le_bytes rest) % 256 = b by omega,
      show (b + 256 * from_le_bytes rest) / 256 = from_le_bytes rest by omega,
      ih (fun b' hb' => h b' (List.mem_cons_of_mem b hb'))]

lemma from_le_bytes_lt (bs : List Nat) (h : ∀ b ∈ bs, b < 256) :
    from_le_bytes bs < 256 ^ bs.length := by
  induction bs with
  | nil => exact Nat.zero_lt_one
  | cons b rest ih =>
    have hb := h b (List.mem_cons_self b rest)
    have hr := ih (fun b' hb' => h b' (List.mem_cons_of_mem b hb'))
    show b + 256 * from_le_bytes rest < 256 ^ (rest.length + 1)
    rw [pow_succ]
    omega

lemma to_signed_to_unsigned_32 (x : Int) (h1 : -(2 ^ 31) ≤ x) (h2 : x < 2 ^ 31) :
    to_signed 32 (to_unsigned 32 x) = x := by
  simp only [to_signed, to_unsigned]
  norm_num
  split <;> omega

lemma to_signed_to_unsigned_64 (x : Int) (h1 : -(2 ^ 63) ≤ x) (h2 : x < 2 ^ 63) :
    to_signed 64 (to_unsigned 64 x) = x := by
  simp only [to_signed, to_unsigned]
  norm_num
  split <;> omega

lemma to_unsigned_to_signed_32 (n : Nat) (h : n < 2 ^ 32) :
    to_unsigned 32 (to_signed 32 n) = n := by
  simp only [to_signed, to_unsigned]
  norm_num
  split <;> omega

lemma to_unsigned_to_signed_64 (n : Nat) (h : n < 2 ^ 64) :
    to_unsigned 64 (to_signed 64 n) = n := by
  simp only [to_signed, to_unsigned]
  norm_num
  split <;> omega

lemma to_unsigned_lt_32 (x : Int) : to_unsigned 32 x < 2 ^ 32 := by
  simp only [to_unsigned]
  norm_num
  omega

lemma to_unsigned_lt_64 (x : Int) : to_unsigned 64 x < 2 ^ 64 := by
  simp only [to_unsigned]
  norm_num
  omega

lemma hex_val_lower (c : Char) (h : is_lower_hex c) :
    ∃ n : Nat, hex_val c = some n ∧ n < 16 ∧ hex_digit n = c := by
  rcases h with ⟨h1, h2⟩ | ⟨h1, h2⟩
  · refine ⟨c.toNat - 48, ?_, by omega, ?_⟩
    · unfold hex_val
      rw [if_pos ⟨h1, h2⟩]
    · unfold hex_digit
      rw [if_pos (by omega), show 48 + (c.toNat - 48) = c.toNat by omega]
      exact Char.ofNat_toNat c
  · refine ⟨c.toNat - 87, ?_, by omega, ?_⟩
    · unfold hex_val
      rw [if_neg (by omega), if_pos ⟨h1, h2⟩]
    · unfold hex_digit
      rw [if_neg (by omega), show 87 + (c.toNat - 87) = c.toNat by omega]
      exact Char.ofNat_toNat c

lemma parse_lower_hex (n : Nat) : ∀ cs : List Char, cs.length = 2 * n →
    (∀ c ∈ cs, is_lower_hex c) →
    ∃ bs : List Nat, parse_hex cs = some bs ∧ (∀ b ∈ bs, b < 256) ∧
      bs.length = n ∧ bs.flatMap byte_hex = cs := by
  induction n with
  | zero =>
    intro cs hlen _
    have : cs = [] := List.length_eq_zero.mp (by omega)
    subst this
    exact ⟨[], rfl, by simp, rfl, rfl⟩
  | succ n ih =>
    intro cs hlen hhex
    match cs, hlen with
    | c1 :: c2 :: rest, hlen =>
      have hr : rest.length = 2 * n := by
        simp only [List.length_cons] at hlen
        omega
      obtain ⟨b1, hv1, hb1, hd1⟩ := hex_val_lower c1 (hhex c1 (by simp))
      obtain ⟨b2, hv2, hb2, hd2⟩ := hex_val_lower c2 (hhex c2 (by simp))
      obtain ⟨bs, hp, hbs, hbl, hbf⟩ := ih rest hr
        (fun c hc => hhex c (List.mem_cons_of_mem _ (List.mem_cons_of_mem _ hc)))
      refine ⟨(16 * b1 + b2) :: bs, ?_, ?_, ?_, ?_⟩
      · unfold parse_hex
        rw [hv1, hv2, hp]
      · intro b hb
        rcases List.mem_cons.mp hb with rfl | hb'
        · omega
        · exact hbs b hb'
      · simp [hbl]
      · show byte_hex (16 * b1 + b2) ++ bs.flatMap byte_hex = c1 :: c2 :: rest
        have hbh : byte_hex (16 * b1 + b2) = [c1, c2] := by
          unfold byte_hex
          rw [show (16 * b1 + b2) / 16 = b1 by omega,
            show (16 * b1 + b2) % 16 = b2 by omega, hd1, hd2]
        rw [hbh, hbf]
        rfl

lemma loads_dumps (p : tgl_peer_id_t) (h : in_range p) :
    tgl_peer_id_t.loads (tgl_peer_id_t.dumps p) = some p := by
  obtain ⟨h1, h2, h3, h4, h5, h6⟩ := h
  have hall : ∀ b ∈ to_le_bytes 4 (to_unsigned 32 p.peer_type) ++
      (to_le_bytes 4 (to_unsigned 32 p.peer_id) ++
       to_le_bytes 8 (to_unsigned 64 p.access_hash)), b < 256 := by
    intro b hb
    rcases List.mem_append.mp hb with hb | hb
    · exact to_le_bytes_lt 4 _ b hb
    · rcases List.mem_append.mp hb with hb | hb
      · exact to_le_bytes_lt 4 _ b hb
      · exact to_le_bytes_lt 8 _ b hb
  have hdata : (tgl_peer_id_t.dumps p).data =
      '$' :: ((to_le_bytes 4 (to_unsigned 32 p.peer_type) ++
        (to_le_bytes 4 (to_unsigned 32 p.peer_id) ++
         to_le_bytes 8 (to_unsigned 64 p.access_hash))).flatMap byte_hex) := by
    show '$' :: ((to_le_bytes 4 (to_unsigned 32 p.peer_type) ++
      to_le_bytes 4 (to_unsigned 32 p.peer_id) ++
      to_le_bytes 8 (to_unsigned 64 p.access_hash)).flatMap byte_hex) = _
    rw [List.append_assoc]
  have hstrip : tgl_peer_id_t.strip_dollars (tgl_peer_id_t.dumps p).data =
      (to_le_bytes 4 (to_unsigned 32 p.peer_type) ++
       (to_le_bytes 4 (to_unsigned 32 p.peer_id) ++
        to_le_bytes 8 (to_unsigned 64 p.access_hash))).flatMap byte_hex := by
    rw [hdata]
    show (if '$' = '$' then tgl_peer_id_t.strip_dollars _ else _) = _
    rw [if_pos rfl]
    exact strip_dollars_flatMap _ hall
  have hparse : parse_hex (tgl_peer_id_t.strip_dollars (tgl_peer_id_t.dumps p).data) =
      some (to_le_bytes 4 (to_unsigned 32 p.peer_type) ++
        (to_le_bytes 4 (to_unsigned 32 p.peer_id) ++
         to_le_bytes 8 (to_unsigned 64 p.access_hash))) := by
    rw [hstrip]
    exact parse_hex_flatMap _ hall
  have hlA : (to_le_bytes 4 (to_unsigned 32 p.peer_type)).length = 4 := to_le_bytes_length 4 _
  have hlB : (to_le_bytes 4 (to_unsigned 32 p.peer_id)).length = 4 := to_le_bytes_length 4 _
  have hlC : (to_le_bytes 8 (to_unsigned 64 p.access_hash)).length = 8 := to_le_bytes_length 8 _
  unfold tgl_peer_id_t.loads
  rw [hparse]
  have hlen : (to_le_bytes 4 (to_unsigned 32 p.peer_type) ++
      (to_le_bytes 4 (to_unsigned 32 p.peer_id) ++
       to_le_bytes 8 (to_unsigned 64 p.access_hash))).length = 16 := by
    simp [hlA, hlB, hlC]
  show (if (to_le_bytes 4 (to_unsigned 32 p.peer_type) ++
      (to_le_bytes 4 (to_unsigned 32 p.peer_id) ++
       to_le_bytes 8 (to_unsigned 64 p.access_hash))).length = 16 then
      some (⟨to_signed 32 (from_le_bytes ((to_le_bytes 4 (to_unsigned 32 p.peer_type) ++
          (to_le_bytes 4 (to_unsigned 32 p.peer_id) ++
           to_le_bytes 8 (to_unsigned 64 p.access_hash))).take 4)),
        to_signed 32 (from_le_bytes (((to_le_bytes 4 (to_unsigned 32 p.peer_type) ++
          (to_le_bytes 4 (to_unsigned 32 p.peer_id) ++
           to_le_bytes 8 (to_unsigned 64 p.access_hash))).drop 4).take 4)),
        to_signed 64 (from_le_bytes ((to_le_bytes 4 (to_unsigned 32 p.peer_type) ++
          (to_le_bytes 4 (to_unsigned 32 p.peer_id) ++
           to_le_bytes 8 (to_unsigned 64 p.access_hash))).drop 8))⟩ : tgl_peer_id_t)
    else none) = some p
  rw [if_pos hlen]
  have hdrop4 : (to_le_bytes 4 (to_unsigned 32 p.peer_type) ++
      (to_le_bytes 4 (to_unsigned 32 p.peer_id) ++
       to_le_bytes 8 (to_unsigned 64 p.access_hash))).drop 4 =
      to_le_bytes 4 (to_unsigned 32 p.peer_id) ++
      to_le_bytes 8 (to_unsigned 64 p.access_hash) := List.drop_left' hlA
  have hdrop8 : (to_le_bytes 4 (to_unsigned 32 p.peer_type) ++
      (to_le_bytes 4 (to_unsigned 32 p.peer_id) ++
       to_le_bytes 8 (to_unsigned 64 p.access_hash))).drop 8 =
      to_le_bytes 8 (to_unsigned 64 p.access_hash) := by
    rw [show (8 : Nat) = 4 + 4 from rfl, ← List.drop_drop, hdrop4, List.drop_left' hlB]
  rw [List.take_left' hlA, hdrop4, List.take_left' hlB, hdrop8]
  rw [from_to_le_bytes 4 _ (by have := to_unsigned_lt_32 p.peer_type; norm_num at this ⊢; omega),
    from_to_le_bytes 4 _ (by have := to_unsigned_lt_32 p.peer_id; norm_num at this ⊢; omega),
    from_to_le_bytes 8 _ (by have := to_unsigned_lt_64 p.access_hash; norm_num at this ⊢; omega)]
  rw [to_signed_to_unsigned_32 _ h1 h2, to_signed_to_unsigned_32 _ h3 h4,
    to_signed_to_unsigned_64 _ h5 h6]

lemma dumps_loads (s : String) (h : well_formed_key s) :
    (tgl_peer_id_t.loads s).map tgl_peer_id_t.dumps = some s := by
  obtain ⟨cs, hdata, hlen, hhex⟩ := h
  have hstrip : tgl_peer_id_t.strip_dollars s.data = cs := by
    rw [hdata]
    show (if '$' = '$' then tgl_peer_id_t.strip_dollars cs else '$' :: cs) = cs
    rw [if_pos rfl]
    cases cs with
    | nil => rfl
    | cons c rest =>
      show (if c = '$' then tgl_peer_id_t.strip_dollars rest else c :: rest) = c :: rest
      rw [if_neg ?_]
      intro hc
      have h36 := hhex c (List.mem_cons_self c rest)
      rw [hc] at h36
      revert h36
      decide
  obtain ⟨bs, hp, hbs, hbl, hbf⟩ := parse_lower_hex 16 cs (by rw [hlen]) hhex
  unfold tgl_peer_id_t.loads
  rw [hstrip, hp]
  show (if bs.length = 16 then
      some (⟨to_signed 32 (from_le_bytes (bs.take 4)),
        to_signed 32 (from_le_bytes ((bs.drop 4).take 4)),
        to_signed 64 (from_le_bytes (bs.drop 8))⟩ : tgl_peer_id_t)
    else none).map tgl_peer_id_t.dumps = some s
  rw [if_pos hbl]
  show some (tgl_peer_id_t.dumps ⟨to_signed 32 (from_le_bytes (bs.take 4)),
    to_signed 32 (from_le_bytes ((bs.drop 4).take 4)),
    to_signed 64 (from_le_bytes (bs.drop 8))⟩) = some s
  have hlt1 : (bs.take 4).length = 4 := by simp [hbl]
  have hlt2 : ((bs.drop 4).take 4).length = 4 := by simp [hbl]
  have hlt3 : (bs.drop 8).length = 8 := by simp [hbl]
  have hsub1 : ∀ b ∈ bs.take 4, b < 256 := fun b hb => hbs b (List.take_subset _ _ hb)
  have hsub2 : ∀ b ∈ (bs.drop 4).take 4, b < 256 :=
    fun b hb => hbs b (List.drop_subset _ _ (List.take_subset _ _ hb))
  have hsub3 : ∀ b ∈ bs.drop 8, b < 256 := fun b hb => hbs b (List.drop_subset _ _ hb)
  have hu1 : to_unsigned 32 (to_signed 32 (from_le_bytes (bs.take 4))) =
      from_le_bytes (bs.take 4) := by
    apply to_unsigned_to_signed_32
    have := from_le_bytes_lt _ hsub1
    rw [hlt1] at this
    norm_num at this ⊢
    omega
  have hu2 : to_unsigned 32 (to_signed 32 (from_le_bytes ((bs.drop 4).take 4))) =
      from_le_bytes ((bs.drop 4).take 4) := by
    apply to_unsigned_to_signed_32
    have := from_le_bytes_lt _ hsub2
    rw [hlt2] at this
    norm_num at this ⊢
    omega
  have hu3 : to_unsigned 64 (to_signed 64 (from_le_bytes (bs.drop 8))) =
      from_le_bytes (bs.drop 8) := by
    apply to_unsigned_to_signed_64
    have := from_le_bytes_lt _ hsub3
    rw [hlt3] at this
    norm_num at this ⊢
    omega
  have ht1 : to_le_bytes 4 (from_le_bytes (bs.take 4)) = bs.take 4 := by
    have := to_from_le_bytes (bs.take 4) hsub1
    rw [hlt1] at this
    exact this
  have ht2 : to_le_bytes 4 (from_le_bytes ((bs.drop 4).take 4)) = (bs.drop 4).take 4 := by
    have := to_from_le_bytes ((bs.drop 4).take 4) hsub2
    rw [hlt2] at this
    exact this
  have ht3 : to_le_bytes 8 (from_le_bytes (bs.drop 8)) = bs.drop 8 := by
    have := to_from_le_bytes (bs.drop 8) hsub3
    rw [hlt3] at this
    exact this
  have hsplit : (bs.take 4 ++ (bs.drop 4).take 4) ++ bs.drop 8 = bs := by
    rw [List.append_assoc, show bs.drop 8 = (bs.drop 4).drop 4 from (List.drop_drop 4 4 bs).symm,
      List.take_append_drop, List.take_append_drop]
  show some (String.mk ('$' ::
    ((to_le_bytes 4 (to_unsigned 32 (to_signed 32 (from_le_bytes (bs.take 4)))) ++
      to_le_bytes 4 (to_unsigned 32 (to_signed 32 (from_le_bytes ((bs.drop 4).take 4)))) ++
      to_le_bytes 8 (to_unsigned 64 (to_signed 64 (from_le_bytes (bs.drop 8))))).flatMap
        byte_hex))) = some s
  rw [hu1, hu2, hu3, ht1, ht2, ht3, hsplit, hbf, ← hdata]

lemma convert_peerid1_inj (a b : Int) (ha : a.natAbs < 2 ^ 32) (hb : b.natAbs < 2 ^ 32)
    (h : convert_peerid1 a = convert_peerid1 b) : a = b := by
  unfold convert_peerid1 at h
  rw [Int.abs_eq_natAbs, Int.abs_eq_natAbs] at h
  have hta : (if a < 0 then tgl_peer_id_t.TGL_PEER_CHAT else tgl_peer_id_t.TGL_PEER_USER) =
      (((if a < 0 then 2 else 1 : Nat) : Nat) : Int) := by
    by_cases h0 : a < 0 <;>
      simp [h0, tgl_peer_id_t.TGL_PEER_CHAT, tgl_peer_id_t.TGL_PEER_USER]
  have htb : (if b < 0 then tgl_peer_id_t.TGL_PEER_CHAT else tgl_peer_id_t.TGL_PEER_USER) =
      (((if b < 0 then 2 else 1 : Nat) : Nat) : Int) := by
    by_cases h0 : b < 0 <;>
      simp [h0, tgl_peer_id_t.TGL_PEER_CHAT, tgl_peer_id_t.TGL_PEER_USER]
  rw [hta, htb, to_id_ofNat, to_id_ofNat] at h
  have h' : ((if a < 0 then 2 else 1 : Nat) <<< 32 ||| a.natAbs) =
      ((if b < 0 then 2 else 1 : Nat) <<< 32 ||| b.natAbs) := by exact_mod_cast h
  obtain ⟨ht, hi⟩ := key_inj _ _ _ _ ha hb h'
  by_cases h0a : a < 0 <;> by_cases h0b : b < 0
  · omega
  · rw [if_pos h0a, if_neg h0b] at ht
    omega
  · rw [if_neg h0a, if_pos h0b] at ht
    omega
  · omega

/-- Claim C6: peer-key encoding and decoding are mutually inverse.  For
every triple in the signed ranges of the struct formats `<iiq`,
`loads (dumps p) = p`; for every well-formed key string (a `'$'` followed
by 32 lowercase hex characters, exactly what `dumps` emits),
`dumps (loads k) = k`; the oldest generation's signed-peer-id
normalization `convert_peerid1` is injective on 32-bit ids (so its keys
decode uniquely); and the hex-string generation's `convert_peerid2` is
the canonical-key image of the same `loads` decoding. -/
theorem claim_C6 :
    (∀ p : tgl_peer_id_t, in_range p →
      tgl_peer_id_t.loads (tgl_peer_id_t.dumps p) = some p) ∧
    (∀ s : String, well_formed_key s →
      (tgl_peer_id_t.loads s).map tgl_peer_id_t.dumps = some s) ∧
    (∀ a b : Int, a.natAbs < 2 ^ 32 → b.natAbs < 2 ^ 32 →
      convert_peerid1 a = convert_peerid1 b → a = b) ∧
    (∀ s : String, convert_peerid2 s = (tgl_peer_id_t.loads s).map tgl_peer_id_t.to_id) :=
  ⟨loads_dumps, dumps_loads, convert_peerid1_inj, fun _ => rfl⟩

/-- Witness for claim C6 at the concrete triple (1, 5, 7). -/
theorem claim_C6_witness :
    tgl_peer_id_t.loads (tgl_peer_id_t.dumps ⟨1, 5, 7⟩) = some ⟨1, 5, 7⟩ :=
  claim_C6.1 ⟨1, 5, 7⟩
    ⟨by decide, by decide, by decide, by decide, by decide, by decide⟩

end TgExport
